import Mathlib

/-!
A verification development for the `borrow-check-demo` repository.

Part 1 embeds the pure string/struct helpers of `src/main.rs` directly
(Rust `String` is modelled as `List Char`, `Vec<usize>` as `List Nat`).

Part 2 models the ownership & borrow verification engine described by the
specification.  The engine itself is not present in the source tree (the
source only demonstrates the rules it must enforce), so every engine
definition is modelled from the specification text, as noted in its
doc comment.
-/

namespace BorrowDemo

/-! ## Part 1: functions embedded from src/main.rs -/

/-- `String::push` on the `List Char` model of `String`. -/
def pushChar (s : List Char) (c : Char) : List Char := s ++ [c]

/-- `str::chars`: the iterator over the characters of a string.  On the
`List Char` model it yields exactly the underlying list. -/
def chars (s : List Char) : List Char := s

/-- `Iterator::chain`: the chained iterator yields the first iterator's
elements followed by the second's. -/
def chain (a b : List Char) : List Char := a ++ b

/-- `collect::<String>()` over a character iterator: builds a fresh string
by pushing each produced character onto an initially empty string. -/
def collect (cs : List Char) : List Char := cs.foldl pushChar []

/-- `String::push_str`: appends `t` onto the end of `s`. -/
def push_str (s t : List Char) : List Char := s ++ t

/-- `concat_strings` from `first_example` (src/main.rs lines 14-22):
`prefix.chars().chain(between.chars()).chain(suffix.chars()).collect()`. -/
def concat_strings (pfx between suffix : List Char) : List Char :=
  collect (chain (chain (chars pfx) (chars between)) (chars suffix))

/-- `other_concat_strings` from `first_example` (src/main.rs lines 26-31):
`prefix.push_str(between); prefix.push_str(&suffix); prefix`. -/
def other_concat_strings (pfx between suffix : List Char) : List Char :=
  let p1 := push_str pfx between
  let p2 := push_str p1 suffix
  p2

/-- The struct `BunchaData` (src/main.rs lines 44-48). -/
structure BunchaData where
  s : List Char
  t : List Nat
  curr : Nat
deriving DecidableEq

/-- `BunchaData::with_empty_string` (src/main.rs lines 51-57):
`Self { s: String::new(), t, curr: 0 }`. -/
def BunchaData.with_empty_string (t : List Nat) : BunchaData :=
  { s := [], t := t, curr := 0 }

/-! ## Part 2: the ownership & borrow verification engine

Modelled from the spec: the "Verification Engine", "Value Table",
"Borrow Ledger", "Scope Tree" and "Lifetime Solver" of spec sections 2-4
are absent from `src/`, so they are reconstructed here from the
specification's contracts. -/

/-- Modelled from the spec: the `Copy` / `Move` type classification
consulted at every move/use site (spec section 3, "Variable"). -/
inductive Classification
  | Copy
  | Move
deriving DecidableEq

/-- Modelled from the spec: borrow kinds (spec section 3, "Borrow"). -/
inductive BorrowKind
  | Shared
  | Exclusive
deriving DecidableEq

/-- Modelled from the spec: a variable's current ownership state.  The
borrowed states of spec section 3 are derived from the Borrow Ledger
rather than duplicated here, so only `Owned` / `MovedOut` are stored. -/
inductive OwnershipState
  | Owned
  | MovedOut
deriving DecidableEq

/-- Modelled from the spec: the error kinds of spec section 6. -/
inductive ErrorKind
  | DuplicateBinding
  | UseAfterMove
  | CannotMoveWhileBorrowed
  | ConflictingBorrow
  | StaleUse
  | BorrowOutlivesOwner
  | LifetimeConflict
  | MalformedStream
deriving DecidableEq

/-- Modelled from the spec: the engine's verdict (spec section 4.5). -/
inductive Verdict
  | Accepted
  | Rejected (opIndex : Nat) (reason : ErrorKind)
deriving DecidableEq

/-- Modelled from the spec: the operation stream alphabet of spec
section 4.5.  Variables and borrows are referred to by the index at
which they were created; `UseBorrow` is the stream form of the Borrow
Ledger's `record_use`, and `UnifyGroup` submits a lifetime group to the
Lifetime Solver. -/
inductive Op
  | Declare (name : Nat) (cls : Classification)
  | MoveUse (v : Nat)
  | BorrowUse (kind : BorrowKind) (v : Nat)
  | UseBorrow (b : Nat)
  | Swap (a b : Nat)
  | ScopeOpen
  | ScopeEnd
  | UnifyGroup (bs : List Nat)
deriving DecidableEq

/-- Modelled from the spec: a Value Table record (spec section 3,
"Variable"): a name, a `Copy`/`Move` classification, the current
ownership state and the declaring scope id. -/
structure Variable where
  name : Nat
  classification : Classification
  state : OwnershipState
  scope : Nat
deriving DecidableEq

/-- Modelled from the spec: a Borrow Ledger record (spec section 3,
"Borrow"): kind, target variable and creation index.  The end of the
extent is not stored: it is computed from the stream (non-lexical
lifetimes), see `endOf`. -/
structure Borrow where
  kind : BorrowKind
  target : Nat
  start : Nat
deriving DecidableEq

/-- Modelled from the spec: the engine's state: the Value Table
(`vars`, variable ids are positions), the Borrow Ledger (`borrows`,
borrow ids are positions), and the Scope Tree (`parents` maps a scope id
to its parent, `scopeStack` lists the currently open scopes, innermost
first). -/
structure EngineState where
  vars : List Variable
  borrows : List Borrow
  parents : List (Option Nat)
  scopeStack : List Nat
deriving DecidableEq

/-- The initial engine state: no variables, no borrows, only the root
scope (id 0) open. -/
def initState : EngineState :=
  { vars := [], borrows := [], parents := [none], scopeStack := [0] }

/-- The greatest stream index at which `UseBorrow bid` occurs, at least
`start`.  Modelled from the spec: "a borrow is live over the minimal
interval from its creation operation to its last recorded use". -/
def endOf (ops : List Op) (bid start : Nat) : Nat :=
  ((List.range ops.length).filter
    (fun j => decide (ops[j]? = some (Op.UseBorrow bid)))).foldl max start

/-- A borrow `b` stored at ledger position `bid` is live at index `t`
iff `t` lies in its non-lexical extent `[b.start, endOf ops bid b.start]`. -/
def liveAt (ops : List Op) (bid : Nat) (b : Borrow) (t : Nat) : Prop :=
  b.start ≤ t ∧ t ≤ endOf ops bid b.start

instance (ops : List Op) (bid : Nat) (b : Borrow) (t : Nat) :
    Decidable (liveAt ops bid b t) := by
  unfold liveAt; infer_instance

/-- There is a borrow on variable `v` live at `t` in the ledger suffix
`l` whose first element sits at ledger position `bid`, satisfying `p`. -/
def anyLiveAux (ops : List Op) (v t : Nat) (p : Borrow → Bool) :
    Nat → List Borrow → Bool
  | _, [] => false
  | bid, b :: rest =>
    (decide (b.target = v) && decide (liveAt ops bid b t) && p b)
      || anyLiveAux ops v t p (bid + 1) rest

/-- Modelled from the spec: the Borrow Ledger's liveness query, over the
whole ledger. -/
def anyLiveBorrowOn (ops : List Op) (borrows : List Borrow) (v t : Nat)
    (p : Borrow → Bool) : Bool :=
  anyLiveAux ops v t p 0 borrows

/-- Modelled from the spec: `create_borrow`'s eager exclusion check
(spec section 4.3): an `Exclusive` borrow conflicts with any live borrow
on the same variable, a `Shared` borrow only with a live `Exclusive`. -/
def borrowConflict (ops : List Op) (borrows : List Borrow) (v : Nat)
    (kind : BorrowKind) (t : Nat) : Bool :=
  match kind with
  | .Exclusive => anyLiveBorrowOn ops borrows v t (fun _ => true)
  | .Shared =>
    anyLiveBorrowOn ops borrows v t (fun b => decide (b.kind = BorrowKind.Exclusive))

/-- Some borrow of a variable declared in scope `s` has an extent
reaching past index `t` (checked by `close_scope`, spec section 4.2). -/
def outlivesAux (ops : List Op) (vars : List Variable) (s t : Nat) :
    Nat → List Borrow → Bool
  | _, [] => false
  | bid, b :: rest =>
    (match vars[b.target]? with
     | some w => decide (w.scope = s) && decide (t < endOf ops bid b.start)
     | none => false)
      || outlivesAux ops vars s t (bid + 1) rest

/-- Modelled from the spec: the `BorrowOutlivesOwner` check of
`close_scope` (spec section 4.2). -/
def borrowOutlives (ops : List Op) (st : EngineState) (s t : Nat) : Bool :=
  outlivesAux ops st.vars s t 0 st.borrows

/-- Modelled from the spec: the Scope Tree's `is_ancestor` query (spec
section 4.2), reflexively: the chain of enclosing scopes of `b`
(including `b` itself), followed for at most `fuel` steps. -/
def ancestorChain (parents : List (Option Nat)) : Nat → Nat → List Nat
  | 0, _ => []
  | fuel + 1, s =>
    s :: (match parents[s]? with
          | some (some p) => ancestorChain parents fuel p
          | _ => [])

/-- `a` is `b` or an ancestor scope of `b`. -/
def is_ancestor (parents : List (Option Nat)) (a b : Nat) : Bool :=
  (ancestorChain parents parents.length b).contains a

/-- Two scopes are related when one encloses (or is) the other. -/
def scopeRelated (parents : List (Option Nat)) (a b : Nat) : Bool :=
  is_ancestor parents a b || is_ancestor parents b a

/-- The declaring scope of the target variable of borrow `b`, or 0. -/
def borrowScope (vars : List Variable) (b : Borrow) : Nat :=
  match vars[b.target]? with
  | some w => w.scope
  | none => 0

/-- Modelled from the spec: the Lifetime Solver's `unify` (spec
section 4.4).  Given a lifetime group (a list of borrow ids), it
computes the intersection of the members' extents as
`[maximal start, minimal end]` and demands that the members' underlying
variables be related by scope ancestry; it returns `LifetimeConflict`
when the intersection is empty or some pair of scopes is unrelated.
The next definitions are its pieces: `unifyMembers` resolves the group's
borrow ids against the ledger, `groupLo` is the maximal member start,
`groupHi` the minimal member end, `groupRelated` the pairwise
scope-ancestry condition. -/
def unifyMembers (st : EngineState) (group : List Nat) : List (Nat × Borrow) :=
  group.filterMap (fun bid => (st.borrows[bid]?).map (fun b => (bid, b)))

/-- The maximal start among the group members' extents. -/
def groupLo (members : List (Nat × Borrow)) : Nat :=
  (members.map (fun m => m.2.start)).foldl max 0

/-- The minimal end of the group members' extents (`lo` if empty). -/
def groupHi (ops : List Op) (lo : Nat) (members : List (Nat × Borrow)) : Nat :=
  match members.map (fun m => endOf ops m.1 m.2.start) with
  | [] => lo
  | e :: rest => rest.foldl min e

/-- All pairs of member variables are related by scope ancestry. -/
def groupRelated (st : EngineState) (members : List (Nat × Borrow)) : Bool :=
  members.all fun m1 => members.all fun m2 =>
    scopeRelated st.parents (borrowScope st.vars m1.2) (borrowScope st.vars m2.2)

/-- Modelled from the spec: `unify` proper, see the comment above. -/
def unify (ops : List Op) (st : EngineState) (group : List Nat) :
    Except ErrorKind (Nat × Nat) :=
  if group.any (fun bid => decide (st.borrows[bid]? = none)) then
    .error .MalformedStream
  else
    let members := unifyMembers st group
    if groupRelated st members && decide (groupLo members ≤ groupHi ops (groupLo members) members) then
      .ok (groupLo members, groupHi ops (groupLo members) members)
    else .error .LifetimeConflict

/-- Modelled from the spec: one step of the Verification Engine (spec
section 4.5), dispatching the operation at stream index `i` against the
current state.  `ops` is the whole stream, consulted only to compute
non-lexical borrow extents (`endOf`). -/
def step (ops : List Op) (st : EngineState) (i : Nat) : Op → Except ErrorKind EngineState
  | .Declare name cls =>
    let scope := st.scopeStack.headD 0
    if st.vars.any (fun w => decide (w.name = name) && decide (w.scope = scope)) then
      .error .DuplicateBinding
    else
      .ok { st with vars := st.vars ++ [⟨name, cls, .Owned, scope⟩] }
  | .MoveUse v =>
    match st.vars[v]? with
    | none => .error .MalformedStream
    | some w =>
      match w.classification with
      | .Copy => .ok st
      | .Move =>
        if w.state = .MovedOut then .error .UseAfterMove
        else if anyLiveBorrowOn ops st.borrows v i (fun _ => true) then
          .error .CannotMoveWhileBorrowed
        else
          .ok { st with vars := st.vars.set v { w with state := .MovedOut } }
  | .BorrowUse kind v =>
    match st.vars[v]? with
    | none => .error .MalformedStream
    | some w =>
      if w.state = .MovedOut then .error .UseAfterMove
      else if borrowConflict ops st.borrows v kind i then .error .ConflictingBorrow
      else .ok { st with borrows := st.borrows ++ [⟨kind, v, i⟩] }
  | .UseBorrow b =>
    match st.borrows[b]? with
    | none => .error .MalformedStream
    | some _ => .ok st
  | .Swap a b =>
    match st.vars[a]?, st.vars[b]? with
    | some _, some _ =>
      if anyLiveBorrowOn ops st.borrows a i (fun _ => true)
          || anyLiveBorrowOn ops st.borrows b i (fun _ => true) then
        .error .ConflictingBorrow
      else .ok st
    | _, _ => .error .MalformedStream
  | .ScopeOpen =>
    .ok { st with
          parents := st.parents ++ [some (st.scopeStack.headD 0)],
          scopeStack := st.parents.length :: st.scopeStack }
  | .ScopeEnd =>
    match st.scopeStack with
    | [] => .error .MalformedStream
    | [_] => .error .MalformedStream
    | s :: rest =>
      if borrowOutlives ops st s i then .error .BorrowOutlivesOwner
      else .ok { st with scopeStack := rest }
  | .UnifyGroup bs =>
    match unify ops st bs with
    | .ok _ => .ok st
    | .error e => .error e

/-- Modelled from the spec: the engine's fail-fast walk over the tail
`rest` of the stream, `i` being the index of its first operation. -/
def go (ops : List Op) : EngineState → Nat → List Op → Verdict
  | _, _, [] => .Accepted
  | st, i, op :: rest =>
    match step ops st i op with
    | .error e => .Rejected i e
    | .ok st2 => go ops st2 (i + 1) rest

/-- Modelled from the spec: `verify` (spec section 4.5): single pass over
the stream, stopping at the first component failure. -/
def verify (ops : List Op) : Verdict := go ops initState 0 ops

/-- Runs the engine over the tail `l` (first index `i`) and returns the
resulting state, or `none` if some step fails. -/
def runPrefix (ops : List Op) : EngineState → Nat → List Op → Option EngineState
  | st, _, [] => some st
  | st, i, op :: rest =>
    match step ops st i op with
    | .error _ => none
    | .ok st2 => runPrefix ops st2 (i + 1) rest

/-! ### Concrete operation streams used by the scenarios -/

/-- Spec scenario 1: a Move-classified variable is moved twice. -/
def scenario1 : List Op := [.Declare 0 .Move, .MoveUse 0, .MoveUse 0]

/-- Spec scenario 2: a Copy-classified variable is "moved" twice and then
borrowed. -/
def scenario2 : List Op :=
  [.Declare 0 .Copy, .MoveUse 0, .MoveUse 0, .BorrowUse .Shared 0]

/-- Spec scenario 3: an exclusive borrow is created while a shared borrow
is still live (borrow 1 is used at index 4). -/
def scenario3 : List Op :=
  [.Declare 0 .Move, .BorrowUse .Shared 0, .BorrowUse .Shared 0,
   .BorrowUse .Exclusive 0, .UseBorrow 1]

/-- Two shared borrows of one variable with overlapping extents. -/
def sharedOverlapDemo : List Op :=
  [.Declare 0 .Move, .BorrowUse .Shared 0, .BorrowUse .Shared 0,
   .UseBorrow 0, .UseBorrow 1]

/-- The stream of `borrows_and_their_lifetimes` (src/main.rs lines
143-170): `x` with a shared then an exclusive borrow, `y` with two
shared then an exclusive borrow, then `swap(mx, my)`. -/
def nllDemo : List Op :=
  [.Declare 0 .Copy, .BorrowUse .Shared 0, .BorrowUse .Exclusive 0,
   .Declare 1 .Copy, .BorrowUse .Shared 1, .BorrowUse .Shared 1,
   .BorrowUse .Exclusive 1, .Swap 0 1]

/-- The commented-out `let my2 = &mut y;` of src/main.rs line 163: a
second exclusive borrow is created at index 2 while the first is still
live (it is used at index 3); the second borrow is never used. -/
def eagerDemo : List Op :=
  [.Declare 0 .Copy, .BorrowUse .Exclusive 0, .BorrowUse .Exclusive 0,
   .UseBorrow 0]

/-- Spec scenario 4, failing half: one borrow from each of two sibling
scopes, with disjoint extents, unified into one lifetime group. -/
def siblingDemo : List Op :=
  [.ScopeOpen, .Declare 0 .Move, .BorrowUse .Shared 0, .ScopeEnd,
   .ScopeOpen, .Declare 1 .Move, .BorrowUse .Shared 1, .ScopeEnd,
   .UnifyGroup [0, 1]]

/-- Spec scenario 4, succeeding half: the second variable's scope is
nested inside the first's, and the two extents overlap. -/
def nestedDemo : List Op :=
  [.ScopeOpen, .Declare 0 .Move, .BorrowUse .Shared 0,
   .ScopeOpen, .Declare 1 .Move, .BorrowUse .Shared 1, .UseBorrow 0,
   .UnifyGroup [0, 1], .ScopeEnd, .ScopeEnd]

/-- A swap attempted while one operand still has a live shared borrow. -/
def swapConflictDemo : List Op :=
  [.Declare 0 .Move, .Declare 1 .Move, .BorrowUse .Shared 0,
   .Swap 0 1, .UseBorrow 0]

/-- A swap of a moved-out variable with an owned one: accepted, a swap
never reports `UseAfterMove`. -/
def swapMovedDemo : List Op :=
  [.Declare 0 .Move, .MoveUse 0, .Declare 1 .Move, .Swap 0 1]

/-! ### Invariants stated about engine states -/

/-- The extents `[s1, e1]` and `[s2, e2]` have no common index. -/
def intervalsDisjoint (s1 e1 s2 e2 : Nat) : Prop := e1 < s2 ∨ e2 < s1

/-- Every ledger entry was created before index `i`. -/
def BorrowsBounded (st : EngineState) (i : Nat) : Prop :=
  ∀ (bid : Nat) (b : Borrow), st.borrows[bid]? = some b → b.start < i

/-- No exclusive borrow's extent overlaps the extent of any other borrow
of the same variable (spec section 3, "Borrow" invariant). -/
def ExclusiveIsolated (ops : List Op) (st : EngineState) : Prop :=
  ∀ (bid1 : Nat) (b1 : Borrow) (bid2 : Nat) (b2 : Borrow),
    st.borrows[bid1]? = some b1 → st.borrows[bid2]? = some b2 →
    bid1 ≠ bid2 → b1.target = b2.target → b1.kind = .Exclusive →
    intervalsDisjoint b1.start (endOf ops bid1 b1.start)
      b2.start (endOf ops bid2 b2.start)

/-- Copy-classified variables are always `Owned`, never `MovedOut`. -/
def CopyOwned (st : EngineState) : Prop :=
  ∀ (v : Nat) (w : Variable), st.vars[v]? = some w → w.classification = .Copy →
    w.state = .Owned

/-- Every pair of borrows in `group` targets scope-related variables. -/
def GroupScopesRelated (st : EngineState) (group : List Nat) : Prop :=
  ∀ bid1 ∈ group, ∀ b1 : Borrow, st.borrows[bid1]? = some b1 →
  ∀ bid2 ∈ group, ∀ b2 : Borrow, st.borrows[bid2]? = some b2 →
    scopeRelated st.parents (borrowScope st.vars b1) (borrowScope st.vars b2) = true

/-- Index `t` lies inside the extent of every borrow in `group`. -/
def InAllExtents (ops : List Op) (st : EngineState) (group : List Nat)
    (t : Nat) : Prop :=
  ∀ bid ∈ group, ∀ b : Borrow, st.borrows[bid]? = some b →
    b.start ≤ t ∧ t ≤ endOf ops bid b.start

/-! ## Helper lemmas -/

lemma foldl_pushChar (cs : List Char) :
    ∀ acc : List Char, cs.foldl pushChar acc = acc ++ cs := by
  induction cs with
  | nil => intro acc; simp
  | cons c rest ih => intro acc; simp [List.foldl_cons, pushChar, ih]

lemma anyLiveAux_eq_true (ops : List Op) (v t : Nat) (p : Borrow → Bool) :
    ∀ (l : List Borrow) (bid0 : Nat),
      anyLiveAux ops v t p bid0 l = true ↔
        ∃ (k : Nat) (b : Borrow), l[k]? = some b ∧ b.target = v ∧
          liveAt ops (bid0 + k) b t ∧ p b = true := by
  intro l
  induction l with
  | nil => intro bid0; simp [anyLiveAux]
  | cons b rest ih =>
    intro bid0
    simp only [anyLiveAux, Bool.or_eq_true, Bool.and_eq_true,
      decide_eq_true_iff, ih]
    constructor
    · rintro (⟨⟨htv, hlive⟩, hp⟩ | ⟨k, b2, hget, htv, hlive, hp⟩)
      · exact ⟨0, b, by simp, htv, by simpa using hlive, hp⟩
      · refine ⟨k + 1, b2, by simpa using hget, htv, ?_, hp⟩
        have harith : bid0 + 1 + k = bid0 + (k + 1) := by omega
        rwa [harith] at hlive
    · rintro ⟨k, b2, hget, htv, hlive, hp⟩
      cases k with
      | zero =>
        simp only [List.getElem?_cons_zero, Option.some.injEq] at hget
        subst hget
        exact Or.inl ⟨⟨htv, by simpa using hlive⟩, hp⟩
      | succ k =>
        refine Or.inr ⟨k, b2, by simpa using hget, htv, ?_, hp⟩
        have harith : bid0 + (k + 1) = bid0 + 1 + k := by omega
        rwa [harith] at hlive

lemma anyLiveBorrowOn_iff (ops : List Op) (borrows : List Borrow)
    (v t : Nat) (p : Borrow → Bool) :
    anyLiveBorrowOn ops borrows v t p = true ↔
      ∃ (bid : Nat) (b : Borrow), borrows[bid]? = some b ∧ b.target = v ∧
        liveAt ops bid b t ∧ p b = true := by
  unfold anyLiveBorrowOn
  rw [anyLiveAux_eq_true]
  simp

lemma anyLiveBorrowOn_eq_false (ops : List Op) (borrows : List Borrow)
    (v t : Nat) (p : Borrow → Bool) :
    anyLiveBorrowOn ops borrows v t p = false ↔
      ∀ (bid : Nat) (b : Borrow), borrows[bid]? = some b → b.target = v →
        liveAt ops bid b t → p b = false := by
  rw [← Bool.not_eq_true, anyLiveBorrowOn_iff]
  push_neg
  constructor
  · intro h bid b hget htv hlive
    have := h bid b hget htv
    by_contra hp
    exact this (by simpa using hlive) (by simpa using hp)
  · intro h bid b hget htv hlive hp
    have := h bid b hget htv hlive
    simp [this] at hp

lemma go_accepted_iff (ops : List Op) :
    ∀ (l : List Op) (st : EngineState) (i : Nat),
      go ops st i l = .Accepted ↔ ∃ st2, runPrefix ops st i l = some st2 := by
  intro l
  induction l with
  | nil => intro st i; simp [go, runPrefix]
  | cons op rest ih =>
    intro st i
    cases hs : step ops st i op with
    | error e => simp [go, runPrefix, hs]
    | ok st2 => simp [go, runPrefix, hs, ih st2 (i + 1)]

lemma go_rejected (ops : List Op) :
    ∀ (l : List Op) (st : EngineState) (i j : Nat) (r : ErrorKind),
      go ops st i l = .Rejected j r →
        i ≤ j ∧ ∃ (st2 : EngineState) (op : Op),
          runPrefix ops st i (l.take (j - i)) = some st2 ∧
          l[j - i]? = some op ∧ step ops st2 j op = .error r := by
  intro l
  induction l with
  | nil => intro st i j r h; simp [go] at h
  | cons op rest ih =>
    intro st i j r h
    cases hs : step ops st i op with
    | error e =>
      rw [go, hs] at h
      simp only [Verdict.Rejected.injEq] at h
      obtain ⟨hj, hr⟩ := h
      subst hj; subst hr
      refine ⟨Nat.le_refl i, st, op, ?_, ?_, hs⟩
      · simp [runPrefix]
      · simp
    | ok st2 =>
      rw [go, hs] at h
      obtain ⟨hij, st3, op2, hrun, hget, hstep⟩ := ih st2 (i + 1) j r h
      refine ⟨by omega, st3, op2, ?_, ?_, hstep⟩
      · have hk : j - i = (j - (i + 1)) + 1 := by omega
        rw [hk, List.take_succ_cons, runPrefix, hs]
        exact hrun
      · have hk : j - i = (j - (i + 1)) + 1 := by omega
        rw [hk]
        simpa using hget

lemma runPrefix_preserve (ops : List Op) (P : EngineState → Nat → Prop)
    (hstep : ∀ st i op st2, step ops st i op = .ok st2 → P st i → P st2 (i + 1)) :
    ∀ (l : List Op) (st : EngineState) (i : Nat) (st2 : EngineState),
      runPrefix ops st i l = some st2 → P st i → P st2 (i + l.length) := by
  intro l
  induction l with
  | nil =>
    intro st i st2 h hP
    simp only [runPrefix, Option.some.injEq] at h
    subst h
    simpa using hP
  | cons op rest ih =>
    intro st i st2 h hP
    cases hs : step ops st i op with
    | error e => rw [runPrefix, hs] at h; simp at h
    | ok st3 =>
      rw [runPrefix, hs] at h
      have hlen : i + (op :: rest).length = (i + 1) + rest.length := by
        simp [List.length_cons]; omega
      rw [hlen]
      exact ih st3 (i + 1) st2 h (hstep st i op st3 hs hP)

lemma step_borrows (ops : List Op) (st : EngineState) (i : Nat) (op : Op)
    (st2 : EngineState) (h : step ops st i op = .ok st2) :
    st2.borrows = st.borrows ∨
      ∃ (kind : BorrowKind) (v : Nat) (w : Variable),
        op = .BorrowUse kind v ∧ st.vars[v]? = some w ∧
        w.state ≠ .MovedOut ∧
        borrowConflict ops st.borrows v kind i = false ∧
        st2.borrows = st.borrows ++ [⟨kind, v, i⟩] := by
  cases op with
  | Declare name cls =>
    simp only [step] at h
    split at h
    · simp at h
    · simp only [Except.ok.injEq] at h
      subst h
      left; rfl
  | MoveUse v =>
    simp only [step] at h
    split at h
    · simp at h
    · rename_i w hw
      split at h
      · simp only [Except.ok.injEq] at h
        subst h
        left; rfl
      · split at h
        · simp at h
        · split at h
          · simp at h
          · simp only [Except.ok.injEq] at h
            subst h
            left; rfl
  | BorrowUse kind v =>
    simp only [step] at h
    split at h
    · simp at h
    · rename_i w hw
      split at h
      · simp at h
      · rename_i hst
        split at h
        · simp at h
        · rename_i hcf
          simp only [Except.ok.injEq] at h
          subst h
          right
          refine ⟨kind, v, w, rfl, hw, hst, ?_, rfl⟩
          rwa [Bool.not_eq_true] at hcf
  | UseBorrow b =>
    simp only [step] at h
    split at h
    · simp at h
    · simp only [Except.ok.injEq] at h
      subst h
      left; rfl
  | Swap a b =>
    simp only [step] at h
    split at h
    · rename_i wa wb hwa hwb
      split at h
      · simp at h
      · simp only [Except.ok.injEq] at h
        subst h
        left; rfl
    · simp at h
  | ScopeOpen =>
    simp only [step, Except.ok.injEq] at h
    subst h
    left; rfl
  | ScopeEnd =>
    simp only [step] at h
    split at h
    · simp at h
    · simp at h
    · split at h
      · simp at h
      · simp only [Except.ok.injEq] at h
        subst h
        left; rfl
  | UnifyGroup bs =>
    simp only [step] at h
    split at h
    · simp only [Except.ok.injEq] at h
      subst h
      left; rfl
    · simp at h

lemma step_vars (ops : List Op) (st : EngineState) (i : Nat) (op : Op)
    (st2 : EngineState) (h : step ops st i op = .ok st2) :
    st2.vars = st.vars ∨
      (∃ (name : Nat) (cls : Classification),
        op = .Declare name cls ∧
        st2.vars = st.vars ++ [⟨name, cls, .Owned, st.scopeStack.headD 0⟩]) ∨
      (∃ (v : Nat) (w : Variable),
        op = .MoveUse v ∧ st.vars[v]? = some w ∧
        w.classification = .Move ∧ w.state ≠ .MovedOut ∧
        st2.vars = st.vars.set v { w with state := .MovedOut }) := by
  cases op with
  | Declare name cls =>
    simp only [step] at h
    split at h
    · simp at h
    · simp only [Except.ok.injEq] at h
      subst h
      right; left
      exact ⟨name, cls, rfl, rfl⟩
  | MoveUse v =>
    simp only [step] at h
    split at h
    · simp at h
    · rename_i w hw
      split at h
      · rename_i hc
        simp only [Except.ok.injEq] at h
        subst h
        left; rfl
      · rename_i hc
        split at h
        · simp at h
        · rename_i hst
          split at h
          · simp at h
          · simp only [Except.ok.injEq] at h
            subst h
            right; right
            exact ⟨v, w, rfl, hw, hc, hst, rfl⟩
  | BorrowUse kind v =>
    simp only [step] at h
    split at h
    · simp at h
    · split at h
      · simp at h
      · split at h
        · simp at h
        · simp only [Except.ok.injEq] at h
          subst h
          left; rfl
  | UseBorrow b =>
    simp only [step] at h
    split at h
    · simp at h
    · simp only [Except.ok.injEq] at h
      subst h
      left; rfl
  | Swap a b =>
    simp only [step] at h
    split at h
    · split at h
      · simp at h
      · simp only [Except.ok.injEq] at h
        subst h
        left; rfl
    · simp at h
  | ScopeOpen =>
    simp only [step, Except.ok.injEq] at h
    subst h
    left; rfl
  | ScopeEnd =>
    simp only [step] at h
    split at h
    · simp at h
    · simp at h
    · split at h
      · simp at h
      · simp only [Except.ok.injEq] at h
        subst h
        left; rfl
  | UnifyGroup bs =>
    simp only [step] at h
    split at h
    · simp only [Except.ok.injEq] at h
      subst h
      left; rfl
    · simp at h

lemma getElem?_append_one {α : Type} (l : List α) (x : α) (k : Nat) (b : α)
    (h : (l ++ [x])[k]? = some b) :
    (k < l.length ∧ l[k]? = some b) ∨ (k = l.length ∧ b = x) := by
  by_cases hk : k < l.length
  · exact Or.inl ⟨hk, by rwa [List.getElem?_append_left hk] at h⟩
  · right
    push_neg at hk
    rw [List.getElem?_append_right hk] at h
    cases hkl : k - l.length with
    | zero =>
      rw [hkl] at h
      simp only [List.getElem?_cons_zero, Option.some.injEq] at h
      exact ⟨by omega, h.symm⟩
    | succ n => rw [hkl] at h; simp at h

lemma conflict_false_excl (ops : List Op) (borrows : List Borrow)
    (v i : Nat)
    (hconf : borrowConflict ops borrows v .Exclusive i = false) :
    ∀ (bid : Nat) (b : Borrow), borrows[bid]? = some b → b.target = v →
      ¬ liveAt ops bid b i := by
  intro bid b hb htgt hlive
  have := (anyLiveBorrowOn_eq_false ops borrows v i (fun _ => true)).mp
    hconf bid b hb htgt hlive
  simp at this

lemma conflict_false_shared (ops : List Op) (borrows : List Borrow)
    (v i : Nat)
    (hconf : borrowConflict ops borrows v .Shared i = false) :
    ∀ (bid : Nat) (b : Borrow), borrows[bid]? = some b → b.target = v →
      b.kind = .Exclusive → ¬ liveAt ops bid b i := by
  intro bid b hb htgt hex hlive
  have := (anyLiveBorrowOn_eq_false ops borrows v i
    (fun b => decide (b.kind = BorrowKind.Exclusive))).mp hconf bid b hb htgt hlive
  simp [hex] at this

lemma step_preserves_core (ops : List Op) (st : EngineState) (i : Nat)
    (op : Op) (st2 : EngineState) (h : step ops st i op = .ok st2)
    (hB : BorrowsBounded st i) (hX : ExclusiveIsolated ops st) :
    BorrowsBounded st2 (i + 1) ∧ ExclusiveIsolated ops st2 := by
  rcases step_borrows ops st i op st2 h with heq |
    ⟨kind, v, w, hop, hw, hstt, hconf, heq⟩
  · constructor
    · intro bid b hb
      rw [heq] at hb
      exact Nat.lt_succ_of_lt (hB bid b hb)
    · intro bid1 b1 bid2 b2 h1 h2 hne htgt hex
      rw [heq] at h1 h2
      exact hX bid1 b1 bid2 b2 h1 h2 hne htgt hex
  · constructor
    · intro bid b hb
      rw [heq] at hb
      rcases getElem?_append_one _ _ _ _ hb with ⟨hk, hbb⟩ | ⟨hk, hbx⟩
      · exact Nat.lt_succ_of_lt (hB bid b hbb)
      · subst hbx; simp
    · intro bid1 b1 bid2 b2 h1 h2 hne htgt hex
      rw [heq] at h1 h2
      rcases getElem?_append_one _ _ _ _ h1 with ⟨hk1, hb1⟩ | ⟨hk1, hb1⟩ <;>
        rcases getElem?_append_one _ _ _ _ h2 with ⟨hk2, hb2⟩ | ⟨hk2, hb2⟩
      · exact hX bid1 b1 bid2 b2 hb1 hb2 hne htgt hex
      · -- b2 is the newly created borrow, b1 an old exclusive on `v`
        subst hb2
        have hs1 : b1.start < i := hB bid1 b1 hb1
        have htv : b1.target = v := htgt
        have hnl : ¬ liveAt ops bid1 b1 i := by
          cases kind with
          | Exclusive => exact conflict_false_excl ops st.borrows v i hconf bid1 b1 hb1 htv
          | Shared => exact conflict_false_shared ops st.borrows v i hconf bid1 b1 hb1 htv hex
        have he1 : endOf ops bid1 b1.start < i := by
          by_contra hcon
          exact hnl ⟨Nat.le_of_lt hs1, by omega⟩
        exact Or.inl he1
      · -- b1 is the newly created borrow (hence `kind` is exclusive),
        -- b2 an old borrow on `v`
        subst hb1
        have hkind : kind = .Exclusive := hex
        subst hkind
        have hs2 : b2.start < i := hB bid2 b2 hb2
        have htv : b2.target = v := htgt.symm
        have hnl : ¬ liveAt ops bid2 b2 i :=
          conflict_false_excl ops st.borrows v i hconf bid2 b2 hb2 htv
        have he2 : endOf ops bid2 b2.start < i := by
          by_contra hcon
          exact hnl ⟨Nat.le_of_lt hs2, by omega⟩
        exact Or.inr he2
      · exact absurd (hk1.trans hk2.symm) hne

lemma runPrefix_isolated (ops : List Op) (l : List Op) (st2 : EngineState)
    (h : runPrefix ops initState 0 l = some st2) :
    ExclusiveIsolated ops st2 := by
  have hinit : BorrowsBounded initState 0 ∧ ExclusiveIsolated ops initState := by
    constructor
    · intro bid b hb; simp [initState] at hb
    · intro bid1 b1 bid2 b2 h1 h2 _ _ _; simp [initState] at h1
  exact (runPrefix_preserve ops
    (fun st i => BorrowsBounded st i ∧ ExclusiveIsolated ops st)
    (fun st i op st2 hs hP => step_preserves_core ops st i op st2 hs hP.1 hP.2)
    l initState 0 st2 h hinit).2

lemma step_preserves_copyOwned (ops : List Op) (st : EngineState) (i : Nat)
    (op : Op) (st2 : EngineState) (h : step ops st i op = .ok st2)
    (hC : CopyOwned st) : CopyOwned st2 := by
  rcases step_vars ops st i op st2 h with heq |
    ⟨name, cls, hop, heq⟩ | ⟨v, w, hop, hw, hcls, hstt, heq⟩
  · intro u wu hu hc
    rw [heq] at hu
    exact hC u wu hu hc
  · intro u wu hu hc
    rw [heq] at hu
    rcases getElem?_append_one _ _ _ _ hu with ⟨hk, hget⟩ | ⟨hk, hx⟩
    · exact hC u wu hget hc
    · subst hx; rfl
  · intro u wu hu hc
    rw [heq] at hu
    by_cases huv : v = u
    · subst huv
      have hvlt : v < st.vars.length := (List.getElem?_eq_some_iff.mp hw).1
      rw [List.getElem?_set_self hvlt] at hu
      simp only [Option.some.injEq] at hu
      subst hu
      simp only at hc
      rw [hcls] at hc
      cases hc
    · rw [List.getElem?_set_ne huv] at hu
      exact hC u wu hu hc

lemma runPrefix_copyOwned (ops : List Op) (l : List Op) (st2 : EngineState)
    (h : runPrefix ops initState 0 l = some st2) : CopyOwned st2 := by
  have hinit : CopyOwned initState := by
    intro u wu hu hc; simp [initState] at hu
  exact runPrefix_preserve ops (fun st _ => CopyOwned st)
    (fun st i op st2 hs hP => step_preserves_copyOwned ops st i op st2 hs hP)
    l initState 0 st2 h hinit

lemma step_preserves_movedOut (ops : List Op) (st : EngineState) (i : Nat)
    (op : Op) (st2 : EngineState) (v : Nat) (w : Variable)
    (h : step ops st i op = .ok st2)
    (hv : st.vars[v]? = some w) (hm : w.state = .MovedOut) :
    ∃ w2 : Variable, st2.vars[v]? = some w2 ∧ w2.state = .MovedOut ∧
      w2.classification = w.classification := by
  rcases step_vars ops st i op st2 h with heq |
    ⟨name, cls, hop, heq⟩ | ⟨u, wu, hop, hwu, hcls, hstt, heq⟩
  · exact ⟨w, by rw [heq]; exact hv, hm, rfl⟩
  · refine ⟨w, ?_, hm, rfl⟩
    rw [heq]
    have hvlt : v < st.vars.length := (List.getElem?_eq_some_iff.mp hv).1
    rw [List.getElem?_append_left hvlt]
    exact hv
  · by_cases huv : u = v
    · subst huv
      rw [hwu] at hv
      simp only [Option.some.injEq] at hv
      subst hv
      exact absurd hm hstt
    · refine ⟨w, ?_, hm, rfl⟩
      rw [heq, List.getElem?_set_ne huv]
      exact hv

lemma foldl_max_le_iff (l : List Nat) :
    ∀ (a t : Nat), l.foldl max a ≤ t ↔ a ≤ t ∧ ∀ x ∈ l, x ≤ t := by
  induction l with
  | nil => intro a t; simp
  | cons x rest ih =>
    intro a t
    rw [List.foldl_cons, ih]
    constructor
    · rintro ⟨hax, hrest⟩
      refine ⟨?_, ?_⟩
      · exact le_trans (le_max_left a x) hax
      · intro y hy
        rcases List.mem_cons.mp hy with hyx | hyr
        · subst hyx; exact le_trans (le_max_right a y) hax
        · exact hrest y hyr
    · rintro ⟨hat, hall⟩
      refine ⟨max_le hat (hall x (List.mem_cons_self x rest)), ?_⟩
      intro y hy
      exact hall y (List.mem_cons_of_mem x hy)

lemma le_foldl_min_iff (l : List Nat) :
    ∀ (a t : Nat), t ≤ l.foldl min a ↔ t ≤ a ∧ ∀ x ∈ l, t ≤ x := by
  induction l with
  | nil => intro a t; simp
  | cons x rest ih =>
    intro a t
    rw [List.foldl_cons, ih]
    constructor
    · rintro ⟨hax, hrest⟩
      refine ⟨le_trans hax (min_le_left a x), ?_⟩
      intro y hy
      rcases List.mem_cons.mp hy with hyx | hyr
      · subst hyx; exact le_trans hax (min_le_right a y)
      · exact hrest y hyr
    · rintro ⟨hat, hall⟩
      refine ⟨le_min hat (hall x (List.mem_cons_self x rest)), ?_⟩
      intro y hy
      exact hall y (List.mem_cons_of_mem x hy)

/-- The member list built by `unify` contains exactly the pairs of a
group entry and the ledger record it denotes. -/
lemma mem_unify_members (st : EngineState) (group : List Nat)
    (bid : Nat) (b : Borrow) :
    (bid, b) ∈ unifyMembers st group ↔
      bid ∈ group ∧ st.borrows[bid]? = some b := by
  unfold unifyMembers
  rw [List.mem_filterMap]
  constructor
  · rintro ⟨a, ha, hf⟩
    cases hab : st.borrows[a]? with
    | none => rw [hab] at hf; simp at hf
    | some bb =>
      rw [hab] at hf
      simp only [Option.map, Option.some.injEq, Prod.mk.injEq] at hf
      obtain ⟨h1, h2⟩ := hf
      subst h1; subst h2
      exact ⟨ha, hab⟩
  · rintro ⟨hmem, hget⟩
    refine ⟨bid, hmem, ?_⟩
    rw [hget]
    rfl

lemma unify_members_ne_nil (st : EngineState) (group : List Nat)
    (hv : ∀ bid ∈ group, ∃ b, st.borrows[bid]? = some b)
    (hne : group ≠ []) :
    unifyMembers st group ≠ [] := by
  cases group with
  | nil => exact absurd rfl hne
  | cons g gs =>
    obtain ⟨b, hb⟩ := hv g (List.mem_cons_self g gs)
    intro hempty
    have : (g, b) ∈ ([] : List (Nat × Borrow)) := by
      rw [← hempty]
      exact (mem_unify_members st (g :: gs) g b).mpr ⟨List.mem_cons_self g gs, hb⟩
    simp at this

lemma groupLo_le_iff (members : List (Nat × Borrow)) (t : Nat) :
    groupLo members ≤ t ↔ ∀ m ∈ members, m.2.start ≤ t := by
  unfold groupLo
  rw [foldl_max_le_iff]
  simp only [Nat.zero_le, true_and]
  constructor
  · intro h m hm
    exact h m.2.start (List.mem_map.mpr ⟨m, hm, rfl⟩)
  · intro h x hx
    obtain ⟨m, hm, hxm⟩ := List.mem_map.mp hx
    subst hxm
    exact h m hm

lemma le_groupHi_iff (ops : List Op) (lo : Nat)
    (members : List (Nat × Borrow)) (hne : members ≠ []) (t : Nat) :
    t ≤ groupHi ops lo members ↔ ∀ m ∈ members, t ≤ endOf ops m.1 m.2.start := by
  cases members with
  | nil => exact absurd rfl hne
  | cons m ms =>
    unfold groupHi
    simp only [List.map_cons]
    rw [le_foldl_min_iff]
    constructor
    · rintro ⟨hm, hrest⟩
      intro m2 hm2
      rcases List.mem_cons.mp hm2 with hh | hh
      · subst hh; exact hm
      · exact hrest (endOf ops m2.1 m2.2.start) (List.mem_map.mpr ⟨m2, hh, rfl⟩)
    · intro hall
      refine ⟨hall m (List.mem_cons_self m ms), ?_⟩
      intro x hx
      obtain ⟨m2, hm2, hxm⟩ := List.mem_map.mp hx
      subst hxm
      exact hall m2 (List.mem_cons_of_mem m hm2)

lemma unify_eq (ops : List Op) (st : EngineState) (group : List Nat)
    (hv : ∀ bid ∈ group, ∃ b, st.borrows[bid]? = some b) :
    unify ops st group =
      (if groupRelated st (unifyMembers st group)
          && decide (groupLo (unifyMembers st group) ≤
            groupHi ops (groupLo (unifyMembers st group)) (unifyMembers st group)) then
        .ok (groupLo (unifyMembers st group),
          groupHi ops (groupLo (unifyMembers st group)) (unifyMembers st group))
      else .error .LifetimeConflict) := by
  have hguard : ¬ (group.any (fun bid => decide (st.borrows[bid]? = none)) = true) := by
    intro hany
    rw [List.any_eq_true] at hany
    obtain ⟨bid, hbid, hdec⟩ := hany
    obtain ⟨b, hb⟩ := hv bid hbid
    rw [decide_eq_true_iff, hb] at hdec
    cases hdec
  unfold unify
  rw [if_neg hguard]

lemma groupRelated_iff (st : EngineState) (group : List Nat) :
    groupRelated st (unifyMembers st group) = true ↔
      GroupScopesRelated st group := by
  unfold groupRelated GroupScopesRelated
  simp only [List.all_eq_true]
  constructor
  · intro h bid1 h1 b1 hb1 bid2 h2 b2 hb2
    exact h (bid1, b1) ((mem_unify_members st group bid1 b1).mpr ⟨h1, hb1⟩)
      (bid2, b2) ((mem_unify_members st group bid2 b2).mpr ⟨h2, hb2⟩)
  · intro h m1 hm1 m2 hm2
    obtain ⟨h1, hb1⟩ := (mem_unify_members st group m1.1 m1.2).mp (by simpa using hm1)
    obtain ⟨h2, hb2⟩ := (mem_unify_members st group m2.1 m2.2).mp (by simpa using hm2)
    exact h m1.1 h1 m1.2 hb1 m2.1 h2 m2.2 hb2

lemma inAllExtents_iff (ops : List Op) (st : EngineState) (group : List Nat)
    (t : Nat) :
    (∀ m ∈ unifyMembers st group,
        m.2.start ≤ t ∧ t ≤ endOf ops m.1 m.2.start) ↔
      InAllExtents ops st group t := by
  unfold InAllExtents
  constructor
  · intro h bid hbid b hb
    exact h (bid, b) ((mem_unify_members st group bid b).mpr ⟨hbid, hb⟩)
  · intro h m hm
    obtain ⟨h1, hb1⟩ := (mem_unify_members st group m.1 m.2).mp (by simpa using hm)
    exact h m.1 h1 m.2 hb1

lemma intersection_nonempty_iff (ops : List Op) (st : EngineState)
    (group : List Nat)
    (hv : ∀ bid ∈ group, ∃ b, st.borrows[bid]? = some b)
    (hne : group ≠ []) :
    (groupLo (unifyMembers st group) ≤
        groupHi ops (groupLo (unifyMembers st group)) (unifyMembers st group)) ↔
      ∃ t, InAllExtents ops st group t := by
  have hmne := unify_members_ne_nil st group hv hne
  constructor
  · intro h
    refine ⟨groupLo (unifyMembers st group), ?_⟩
    rw [← inAllExtents_iff]
    intro m hm
    constructor
    · exact (groupLo_le_iff _ _).mp (Nat.le_refl _) m hm
    · exact (le_groupHi_iff ops _ _ hmne _).mp h m hm
  · rintro ⟨t, ht⟩
    rw [← inAllExtents_iff] at ht
    have hlo : groupLo (unifyMembers st group) ≤ t :=
      (groupLo_le_iff _ t).mpr (fun m hm => (ht m hm).1)
    have hhi : t ≤ groupHi ops
        (groupLo (unifyMembers st group)) (unifyMembers st group) :=
      (le_groupHi_iff ops _ _ hmne t).mpr (fun m hm => (ht m hm).2)
    exact le_trans hlo hhi

/-! ## Claim theorems -/

/-- C9: for every triple of inputs, `concat_strings` (the chained
iterator version) and `other_concat_strings` (the imperative `push_str`
version) return the same string. -/
theorem concat_strings_eq_other_concat_strings
    (pfx between suffix : List Char) :
    concat_strings pfx between suffix = other_concat_strings pfx between suffix := by
  unfold concat_strings other_concat_strings collect chain chars push_str
  rw [foldl_pushChar]
  simp

/-- C10: `BunchaData.with_empty_string t` returns a record whose string
is empty, whose cursor is 0 and whose vector is exactly `t`. -/
theorem with_empty_string_fields (t : List Nat) :
    (BunchaData.with_empty_string t).s = [] ∧
    (BunchaData.with_empty_string t).curr = 0 ∧
    (BunchaData.with_empty_string t).t = t :=
  ⟨rfl, rfl, rfl⟩

/-- C1: in any accepted stream no exclusive borrow's extent overlaps the
extent of any other borrow of the same variable; a shared borrow is
never rejected when no exclusive borrow is live (so shared borrows may
overlap freely), and the overlapping-shared-borrows stream is accepted. -/
theorem exclusive_borrow_isolation :
    (∀ ops : List Op, verify ops = .Accepted →
      ∃ st, runPrefix ops initState 0 ops = some st ∧ ExclusiveIsolated ops st)
    ∧ (∀ (ops : List Op) (st : EngineState) (i v : Nat) (w : Variable),
        st.vars[v]? = some w → w.state ≠ .MovedOut →
        anyLiveBorrowOn ops st.borrows v i
          (fun b => decide (b.kind = BorrowKind.Exclusive)) = false →
        step ops st i (.BorrowUse .Shared v) =
          .ok { st with borrows := st.borrows ++ [⟨.Shared, v, i⟩] })
    ∧ verify sharedOverlapDemo = .Accepted := by
  refine ⟨?_, ?_, by decide⟩
  · intro ops hacc
    obtain ⟨st, hst⟩ := (go_accepted_iff ops ops initState 0).mp hacc
    exact ⟨st, hst, runPrefix_isolated ops ops st hst⟩
  · intro ops st i v w hv hms hconf
    simp only [step, hv]
    rw [if_neg hms]
    have hc : borrowConflict ops st.borrows v .Shared i = false := hconf
    rw [hc]
    simp

/-- Witness for C1: the overlapping-shared stream is accepted, and its
final ledger satisfies the exclusive-isolation invariant. -/
theorem exclusive_borrow_isolation_witness :
    ∃ st, runPrefix sharedOverlapDemo initState 0 sharedOverlapDemo = some st ∧
      ExclusiveIsolated sharedOverlapDemo st :=
  exclusive_borrow_isolation.1 sharedOverlapDemo (by decide)

/-- C2: a Move-classified variable's first `MoveUse` succeeds and marks
it `MovedOut`; once `MovedOut` every `MoveUse` or `BorrowUse` on it
fails with `UseAfterMove` at that operation's own index, and the
`MovedOut` mark persists under every successful step; scenario 1 is
rejected at index 2 (the second `MoveUse`). -/
theorem move_use_exactly_once :
    (∀ (ops : List Op) (st : EngineState) (i v : Nat) (w : Variable),
        st.vars[v]? = some w → w.classification = .Move → w.state = .Owned →
        anyLiveBorrowOn ops st.borrows v i (fun _ => true) = false →
        step ops st i (.MoveUse v) =
          .ok { st with vars := st.vars.set v { w with state := .MovedOut } })
    ∧ (∀ (ops : List Op) (st : EngineState) (i v : Nat) (w : Variable),
        st.vars[v]? = some w → w.state = .MovedOut →
        (w.classification = .Move →
          step ops st i (.MoveUse v) = .error .UseAfterMove)
        ∧ ∀ kind, step ops st i (.BorrowUse kind v) = .error .UseAfterMove)
    ∧ (∀ (ops : List Op) (st : EngineState) (i : Nat) (op : Op)
        (st2 : EngineState) (v : Nat) (w : Variable),
        step ops st i op = .ok st2 → st.vars[v]? = some w →
        w.state = .MovedOut →
        ∃ w2 : Variable, st2.vars[v]? = some w2 ∧ w2.state = .MovedOut ∧
          w2.classification = w.classification)
    ∧ verify scenario1 = .Rejected 2 .UseAfterMove := by
  refine ⟨?_, ?_, ?_, by decide⟩
  · intro ops st i v w hv hcls hOwn hlive
    simp only [step, hv, hcls]
    have hms : ¬ (w.state = OwnershipState.MovedOut) := by
      rw [hOwn]; intro hh; cases hh
    rw [if_neg hms, hlive]
    simp
  · intro ops st i v w hv hms
    constructor
    · intro hcls
      simp only [step, hv, hcls]
      rw [if_pos hms]
    · intro kind
      simp only [step, hv]
      rw [if_pos hms]
  · intro ops st i op st2 v w hs hv hm
    exact step_preserves_movedOut ops st i op st2 v w hs hv hm

/-- Witness for C2: a `MoveUse` of the moved-out variable of scenario 1
fails with `UseAfterMove`. -/
theorem move_use_exactly_once_witness :
    step scenario1 ⟨[⟨0, .Move, .MovedOut, 0⟩], [], [none], [0]⟩ 2 (.MoveUse 0)
      = .error .UseAfterMove :=
  ((move_use_exactly_once.2.1) scenario1
    ⟨[⟨0, .Move, .MovedOut, 0⟩], [], [none], [0]⟩ 2 0
    ⟨0, .Move, .MovedOut, 0⟩ rfl rfl).1 rfl

/-- C3: a `MoveUse` of a Copy-classified variable is a no-op that leaves
the whole engine state unchanged, Copy-classified variables are `Owned`
in every reachable state (never `MovedOut`), and scenario 2 is accepted. -/
theorem copy_move_use_is_noop :
    (∀ (ops : List Op) (st : EngineState) (i v : Nat) (w : Variable),
        st.vars[v]? = some w → w.classification = .Copy →
        step ops st i (.MoveUse v) = .ok st)
    ∧ (∀ (ops l : List Op) (st : EngineState),
        runPrefix ops initState 0 l = some st → CopyOwned st)
    ∧ verify scenario2 = .Accepted := by
  refine ⟨?_, ?_, by decide⟩
  · intro ops st i v w hv hcls
    simp only [step, hv, hcls]
  · intro ops l st h
    exact runPrefix_copyOwned ops l st h

/-- Witness for C3: the second `MoveUse` of the Copy variable in
scenario 2 succeeds and changes nothing. -/
theorem copy_move_use_is_noop_witness :
    step scenario2 ⟨[⟨0, .Copy, .Owned, 0⟩], [], [none], [0]⟩ 2 (.MoveUse 0)
      = .ok ⟨[⟨0, .Copy, .Owned, 0⟩], [], [none], [0]⟩ :=
  copy_move_use_is_noop.1 scenario2
    ⟨[⟨0, .Copy, .Owned, 0⟩], [], [none], [0]⟩ 2 0
    ⟨0, .Copy, .Owned, 0⟩ rfl rfl

/-- C4: borrow extents are non-lexical: a borrow whose computed end
(its last recorded use) precedes index `i` never conflicts with a new
borrow of either kind created at `i`, and the full
`borrows_and_their_lifetimes` stream (shared borrows dead before the
exclusive ones are created, all in one scope) is accepted. -/
theorem non_lexical_extents :
    (∀ (ops : List Op) (st : EngineState) (i v : Nat) (w : Variable)
        (kind : BorrowKind),
        st.vars[v]? = some w → w.state ≠ .MovedOut →
        (∀ (bid : Nat) (b : Borrow), st.borrows[bid]? = some b →
          b.target = v → endOf ops bid b.start < i) →
        step ops st i (.BorrowUse kind v) =
          .ok { st with borrows := st.borrows ++ [⟨kind, v, i⟩] })
    ∧ verify nllDemo = .Accepted := by
  refine ⟨?_, by decide⟩
  intro ops st i v w kind hv hms hdead
  simp only [step, hv]
  rw [if_neg hms]
  have hconf : borrowConflict ops st.borrows v kind i = false := by
    cases kind with
    | Exclusive =>
      show anyLiveBorrowOn ops st.borrows v i (fun _ => true) = false
      rw [anyLiveBorrowOn_eq_false]
      intro bid b hb htv hlive
      have hd := hdead bid b hb htv
      exact absurd hlive.2 (by omega)
    | Shared =>
      show anyLiveBorrowOn ops st.borrows v i
        (fun b => decide (b.kind = BorrowKind.Exclusive)) = false
      rw [anyLiveBorrowOn_eq_false]
      intro bid b hb htv hlive
      have hd := hdead bid b hb htv
      exact absurd hlive.2 (by omega)
  rw [hconf]
  simp

/-- Witness for C4: creating the exclusive borrow of `x` at index 2 of
the `borrows_and_their_lifetimes` stream succeeds because the shared
borrow's extent ended at its creation, index 1. -/
theorem non_lexical_extents_witness :
    step nllDemo ⟨[⟨0, .Copy, .Owned, 0⟩], [⟨.Shared, 0, 1⟩], [none], [0]⟩ 2
        (.BorrowUse .Exclusive 0)
      = .ok ⟨[⟨0, .Copy, .Owned, 0⟩],
          [⟨.Shared, 0, 1⟩, ⟨.Exclusive, 0, 2⟩], [none], [0]⟩ :=
  non_lexical_extents.1 nllDemo
    ⟨[⟨0, .Copy, .Owned, 0⟩], [⟨.Shared, 0, 1⟩], [none], [0]⟩ 2 0
    ⟨0, .Copy, .Owned, 0⟩ .Exclusive rfl (by intro hh; cases hh)
    (by
      intro bid b hb htv
      cases bid with
      | zero =>
        simp only [List.getElem?_cons_zero, Option.some.injEq] at hb
        subst hb
        decide
      | succ n => simp at hb)

/-- C5: the exclusion rule is checked eagerly at creation: creating an
exclusive borrow at index `i` while any borrow of the same variable is
live at `i` fails with `ConflictingBorrow` at that very operation (the
check never looks at uses of the new borrow), and the stream with the
second `&mut y` is rejected at the creation index 2 although that second
borrow is never used. -/
theorem conflict_checked_at_creation :
    (∀ (ops : List Op) (st : EngineState) (i v : Nat) (w : Variable),
        st.vars[v]? = some w → w.state ≠ .MovedOut →
        (∃ (bid : Nat) (b : Borrow), st.borrows[bid]? = some b ∧
          b.target = v ∧ liveAt ops bid b i) →
        step ops st i (.BorrowUse .Exclusive v) = .error .ConflictingBorrow)
    ∧ verify eagerDemo = .Rejected 2 .ConflictingBorrow := by
  refine ⟨?_, by decide⟩
  intro ops st i v w hv hms hex
  simp only [step, hv]
  rw [if_neg hms]
  have hconf : borrowConflict ops st.borrows v .Exclusive i = true := by
    show anyLiveBorrowOn ops st.borrows v i (fun _ => true) = true
    rw [anyLiveBorrowOn_iff]
    obtain ⟨bid, b, hb, htv, hlive⟩ := hex
    exact ⟨bid, b, hb, htv, hlive, rfl⟩
  rw [hconf]
  simp

/-- Witness for C5: creating the second exclusive borrow of `y` at
index 2 fails while the first (used later, at index 3) is live. -/
theorem conflict_checked_at_creation_witness :
    step eagerDemo ⟨[⟨0, .Copy, .Owned, 0⟩], [⟨.Exclusive, 0, 1⟩], [none], [0]⟩ 2
        (.BorrowUse .Exclusive 0)
      = .error .ConflictingBorrow :=
  conflict_checked_at_creation.1 eagerDemo
    ⟨[⟨0, .Copy, .Owned, 0⟩], [⟨.Exclusive, 0, 1⟩], [none], [0]⟩ 2 0
    ⟨0, .Copy, .Owned, 0⟩ rfl (by intro hh; cases hh)
    ⟨0, ⟨.Exclusive, 0, 1⟩, rfl, rfl, by decide⟩

/-- C6: `Swap a b` succeeds exactly when no borrow of `a` or of `b` is
live at its index (its own two atomic exclusive borrows aside), it can
never fail with `UseAfterMove` whatever the operands' classification or
state, the swap of a moved-out variable is accepted, and a swap with a
live borrow on an operand is rejected with `ConflictingBorrow`. -/
theorem swap_requires_unborrowed_operands :
    (∀ (ops : List Op) (st : EngineState) (i a b : Nat) (wa wb : Variable),
        st.vars[a]? = some wa → st.vars[b]? = some wb →
        (step ops st i (.Swap a b) = .ok st ↔
          ¬ ∃ (bid : Nat) (bb : Borrow), st.borrows[bid]? = some bb ∧
            (bb.target = a ∨ bb.target = b) ∧ liveAt ops bid bb i))
    ∧ (∀ (ops : List Op) (st : EngineState) (i a b : Nat),
        step ops st i (.Swap a b) ≠ .error .UseAfterMove)
    ∧ verify swapMovedDemo = .Accepted
    ∧ verify swapConflictDemo = .Rejected 3 .ConflictingBorrow := by
  refine ⟨?_, ?_, by decide, by decide⟩
  · intro ops st i a b wa wb ha hb
    simp only [step, ha, hb]
    by_cases hcond : (anyLiveBorrowOn ops st.borrows a i (fun _ => true)
        || anyLiveBorrowOn ops st.borrows b i (fun _ => true)) = true
    · rw [if_pos hcond]
      rw [Bool.or_eq_true] at hcond
      constructor
      · intro hh; exact absurd hh (by simp)
      · intro hn
        exfalso
        apply hn
        rcases hcond with hc | hc
        · obtain ⟨bid, bb, hbb, htv, hlive, _⟩ :=
            (anyLiveBorrowOn_iff ops st.borrows a i (fun _ => true)).mp hc
          exact ⟨bid, bb, hbb, Or.inl htv, hlive⟩
        · obtain ⟨bid, bb, hbb, htv, hlive, _⟩ :=
            (anyLiveBorrowOn_iff ops st.borrows b i (fun _ => true)).mp hc
          exact ⟨bid, bb, hbb, Or.inr htv, hlive⟩
    · rw [if_neg hcond]
      rw [Bool.or_eq_true] at hcond
      constructor
      · intro _
        rintro ⟨bid, bb, hbb, htv | htv, hlive⟩
        · exact hcond (Or.inl ((anyLiveBorrowOn_iff ops
            st.borrows a i (fun _ => true)).mpr ⟨bid, bb, hbb, htv, hlive, rfl⟩))
        · exact hcond (Or.inr ((anyLiveBorrowOn_iff ops
            st.borrows b i (fun _ => true)).mpr ⟨bid, bb, hbb, htv, hlive, rfl⟩))
      · intro _; rfl
  · intro ops st i a b hcontra
    simp only [step] at hcontra
    split at hcontra
    · split at hcontra
      · simp at hcontra
      · simp at hcontra
    · simp at hcontra

/-- Witness for C6: the swap of the moved-out variable `0` with the
owned variable `1` succeeds (no `UseAfterMove`). -/
theorem swap_requires_unborrowed_operands_witness :
    step swapMovedDemo
      ⟨[⟨0, .Move, .MovedOut, 0⟩, ⟨1, .Move, .Owned, 0⟩], [], [none], [0]⟩ 3
        (.Swap 0 1)
      = .ok ⟨[⟨0, .Move, .MovedOut, 0⟩, ⟨1, .Move, .Owned, 0⟩], [], [none], [0]⟩ :=
  (swap_requires_unborrowed_operands.1 swapMovedDemo
    ⟨[⟨0, .Move, .MovedOut, 0⟩, ⟨1, .Move, .Owned, 0⟩], [], [none], [0]⟩ 3 0 1
    ⟨0, .Move, .MovedOut, 0⟩ ⟨1, .Move, .Owned, 0⟩ rfl rfl).mpr
    (by rintro ⟨bid, bb, hbb, _, _⟩; simp at hbb)

/-- C7: `verify` is a deterministic single pass in stream order: it
accepts exactly when every operation steps without failure, and when it
rejects at index `j` with reason `r`, every operation before `j`
succeeded and the operation at `j` is the one whose component check
fails with `r`. -/
theorem verify_single_pass_fail_fast (ops : List Op) :
    (verify ops = .Accepted ↔ ∃ st, runPrefix ops initState 0 ops = some st)
    ∧ (∀ (j : Nat) (r : ErrorKind), verify ops = .Rejected j r →
        ∃ (st : EngineState) (op : Op),
          runPrefix ops initState 0 (ops.take j) = some st ∧
          ops[j]? = some op ∧ step ops st j op = .error r) := by
  constructor
  · exact go_accepted_iff ops ops initState 0
  · intro j r h
    obtain ⟨h0, st, op, hrun, hget, hstep⟩ := go_rejected ops ops initState 0 j r h
    rw [Nat.sub_zero] at hrun hget
    exact ⟨st, op, hrun, hget, hstep⟩

/-- Witness for C7: scenario 1 is rejected at index 2, all operations
before index 2 succeed and the operation at index 2 is the failing one. -/
theorem verify_single_pass_fail_fast_witness :
    ∃ (st : EngineState) (op : Op),
      runPrefix scenario1 initState 0 (scenario1.take 2) = some st ∧
      scenario1[2]? = some op ∧ step scenario1 st 2 op = .error .UseAfterMove :=
  (verify_single_pass_fail_fast scenario1).2 2 .UseAfterMove (by decide)

/-- C8: on a valid nonempty lifetime group, `unify` fails with
`LifetimeConflict` exactly when the members' variables are not pairwise
scope-related or no index lies in every member's extent, and when it
succeeds its result interval contains exactly the indices common to all
member extents (the intersection); the sibling-scopes stream with empty
intersection is rejected with `LifetimeConflict` while the
nested-scopes stream with overlapping extents is accepted. -/
theorem unify_intersects_extents :
    (∀ (ops : List Op) (st : EngineState) (group : List Nat),
      (∀ bid ∈ group, ∃ b : Borrow, st.borrows[bid]? = some b) → group ≠ [] →
      ((unify ops st group = .error .LifetimeConflict ↔
          ¬ (GroupScopesRelated st group ∧ ∃ t, InAllExtents ops st group t))
        ∧ ∀ lohi : Nat × Nat, unify ops st group = .ok lohi →
            ∀ t : Nat, (lohi.1 ≤ t ∧ t ≤ lohi.2) ↔ InAllExtents ops st group t))
    ∧ verify siblingDemo = .Rejected 8 .LifetimeConflict
    ∧ verify nestedDemo = .Accepted := by
  refine ⟨?_, by decide, by decide⟩
  intro ops st group hv hne
  rw [unify_eq ops st group hv]
  constructor
  · by_cases hcond : (groupRelated st (unifyMembers st group)
        && decide (groupLo (unifyMembers st group) ≤
          groupHi ops (groupLo (unifyMembers st group)) (unifyMembers st group))) = true
    · rw [if_pos hcond]
      constructor
      · intro hh; exact absurd hh (by simp)
      · intro hn
        exfalso
        apply hn
        rw [Bool.and_eq_true, decide_eq_true_iff] at hcond
        exact ⟨(groupRelated_iff st group).mp hcond.1,
          (intersection_nonempty_iff ops st group hv hne).mp hcond.2⟩
    · rw [if_neg hcond]
      constructor
      · intro _
        intro hpair
        apply hcond
        rw [Bool.and_eq_true, decide_eq_true_iff]
        exact ⟨(groupRelated_iff st group).mpr hpair.1,
          (intersection_nonempty_iff ops st group hv hne).mpr hpair.2⟩
      · intro _; rfl
  · intro lohi hok t
    by_cases hcond : (groupRelated st (unifyMembers st group)
        && decide (groupLo (unifyMembers st group) ≤
          groupHi ops (groupLo (unifyMembers st group)) (unifyMembers st group))) = true
    · rw [if_pos hcond] at hok
      simp only [Except.ok.injEq] at hok
      subst hok
      have hmne := unify_members_ne_nil st group hv hne
      constructor
      · rintro ⟨hlo, hhi⟩
        rw [← inAllExtents_iff]
        intro m hm
        exact ⟨(groupLo_le_iff (unifyMembers st group) t).mp hlo m hm,
          (le_groupHi_iff ops (groupLo (unifyMembers st group))
            (unifyMembers st group) hmne t).mp hhi m hm⟩
      · intro hall
        rw [← inAllExtents_iff] at hall
        exact ⟨(groupLo_le_iff (unifyMembers st group) t).mpr
            (fun m hm => (hall m hm).1),
          (le_groupHi_iff ops (groupLo (unifyMembers st group))
            (unifyMembers st group) hmne t).mpr (fun m hm => (hall m hm).2)⟩
    · rw [if_neg hcond] at hok
      simp at hok

/-- Witness for C8: the sibling-scopes group with disjoint extents is
not unifiable: its members are scope-unrelated or share no index. -/
theorem unify_intersects_extents_witness :
    ¬ (GroupScopesRelated
        ⟨[⟨0, .Move, .Owned, 1⟩, ⟨1, .Move, .Owned, 2⟩],
         [⟨.Shared, 0, 2⟩, ⟨.Shared, 1, 6⟩], [none, some 0, some 0], [0]⟩ [0, 1]
      ∧ ∃ t, InAllExtents siblingDemo
        ⟨[⟨0, .Move, .Owned, 1⟩, ⟨1, .Move, .Owned, 2⟩],
         [⟨.Shared, 0, 2⟩, ⟨.Shared, 1, 6⟩], [none, some 0, some 0], [0]⟩ [0, 1] t) :=
  ((unify_intersects_extents.1 siblingDemo
    ⟨[⟨0, .Move, .Owned, 1⟩, ⟨1, .Move, .Owned, 2⟩],
     [⟨.Shared, 0, 2⟩, ⟨.Shared, 1, 6⟩], [none, some 0, some 0], [0]⟩ [0, 1]
    (by
      intro bid hbid
      rcases List.mem_cons.mp hbid with hh | hh
      · subst hh; exact ⟨⟨.Shared, 0, 2⟩, rfl⟩
      · simp only [List.mem_singleton] at hh
        subst hh; exact ⟨⟨.Shared, 1, 6⟩, rfl⟩)
    (by intro hh; cases hh)).1).mp rfl

end BorrowDemo
